import Mathlib

/-!
Verification of the indico-test backend core: stock-safe order placement,
settlement aggregation, and the settlement job engine.

The definitions below are a shallow embedding of the Go source:
* `UpdateStock` embeds `productRepository.UpdateStock`
  (internal/repository/repository.go): the conditional SQL update
  `SET stock = stock - $1, version = version + 1
   WHERE id = $2 AND version = $3 AND stock >= $1`,
  with the zero-rows follow-up read disambiguating `OutOfStock` from a
  concurrency conflict.
* `CreateOrder` embeds `orderService.CreateOrder`: lock product row, stock
  check, order insert (with the in-memory object's current PENDING status),
  conditional stock decrement, then an in-memory-only status assignment to
  CONFIRMED.  An error rolls the transaction back, so the pre-state is kept.

Go `int` values are modelled as `Int`; no claim here touches the overflow
boundary.  Stateful code is modelled by explicit state passing; fallible
code returns `Except`.
-/

namespace Indico

/-- Order status, from models (`PENDING`, `CONFIRMED`, `CANCELLED`). -/
inductive OrderStatus
  | pending
  | confirmed
  | cancelled
  deriving DecidableEq, Repr

/-- Transaction status, from models (`PENDING`, `COMPLETED`, `FAILED`). -/
inductive TransactionStatus
  | pending
  | completed
  | failed
  deriving DecidableEq, Repr

/-- Job status, from models (`QUEUED`, `RUNNING`, `COMPLETED`, `FAILED`,
`CANCELLED`). -/
inductive JobStatus
  | queued
  | running
  | completed
  | failed
  | cancelled
  deriving DecidableEq, Repr

/-- A row of the `products` table. -/
structure Product where
  id : Nat
  stock : Int
  price : Int
  version : Int
  deriving DecidableEq, Repr

/-- The two failure outcomes of the conditional stock update. -/
inductive StockErr
  | outOfStock
  | concurrencyConflict
  deriving DecidableEq, Repr

/-- `productRepository.UpdateStock`: the conditional update decrements
`stock` by `quantity` and bumps `version` only when the stored version
equals the expected `version` and `stock ≥ quantity`; when zero rows are
affected, a follow-up read of the current stock returns `OutOfStock` if it
is below `quantity` and a concurrency conflict otherwise. -/
def UpdateStock (p : Product) (quantity : Int) (version : Int) :
    Except StockErr Product :=
  if p.version = version ∧ quantity ≤ p.stock then
    Except.ok { p with stock := p.stock - quantity, version := p.version + 1 }
  else if p.stock < quantity then
    Except.error StockErr.outOfStock
  else
    Except.error StockErr.concurrencyConflict

/-- A row of the `orders` table. -/
structure Order where
  id : Nat
  productID : Nat
  buyerID : String
  quantity : Int
  status : OrderStatus
  totalCents : Int
  createdAt : Int
  deriving DecidableEq, Repr

/-- `models.CreateOrderRequest`. -/
structure CreateOrderRequest where
  productID : Nat
  quantity : Int
  buyerID : String
  deriving DecidableEq, Repr

/-- Errors surfaced by the order allocator. -/
inductive OrderErr
  | validation
  | productNotFound
  | outOfStock
  | concurrencyConflict
  deriving DecidableEq, Repr

/-- The state an order placement touches: the product row it references
and the persisted order rows. -/
structure OrderState where
  product : Product
  orders : List Order
  deriving Repr

/-- The in-memory `models.Order` object built inside `CreateOrder`, with
`Status: models.OrderStatusPending` and
`TotalCents: product.Price * req.Quantity`. -/
def mkPendingOrder (st : OrderState) (oid : Nat) (now : Int)
    (req : CreateOrderRequest) : Order :=
  { id := oid, productID := req.productID, buyerID := req.buyerID,
    quantity := req.quantity, status := OrderStatus.pending,
    totalCents := st.product.price * req.quantity, createdAt := now }

/-- `orderService.CreateOrder`, single storage transaction: validate
`quantity > 0`; lock the product row (`GetByIDForUpdate`, `ProductNotFound`
when the id does not match); check `stock ≥ quantity`; insert the order row
carrying the in-memory object's current status (PENDING); conditionally
decrement stock with the locked row's version; finally assign CONFIRMED to
the in-memory object only.  Any error aborts the transaction, leaving the
state unchanged (the caller keeps the pre-state).  Returns the in-memory
order handed back to the caller and the committed state. -/
def CreateOrder (st : OrderState) (oid : Nat) (now : Int)
    (req : CreateOrderRequest) : Except OrderErr (Order × OrderState) :=
  if req.quantity ≤ 0 then
    Except.error OrderErr.validation
  else if req.productID ≠ st.product.id then
    Except.error OrderErr.productNotFound
  else if st.product.stock < req.quantity then
    Except.error OrderErr.outOfStock
  else
    -- `orderRepo.Create` persists the row with its current (PENDING) status
    match UpdateStock st.product req.quantity st.product.version with
    | Except.error StockErr.outOfStock => Except.error OrderErr.outOfStock
    | Except.error StockErr.concurrencyConflict =>
        Except.error OrderErr.concurrencyConflict
    | Except.ok p' =>
        -- `order.Status = models.OrderStatusConfirmed` mutates only the
        -- in-memory object; the persisted row above is not updated
        Except.ok ({ mkPendingOrder st oid now req with
                       status := OrderStatus.confirmed },
                   { product := p',
                     orders := mkPendingOrder st oid now req :: st.orders })

/-- A sequence of order placements against one product, serialized by the
row lock (`FOR UPDATE`): failed calls roll back and do not change state.
Returns the successfully created orders (in call order) and the final
state. -/
def runOrders (st : OrderState) :
    List (Nat × Int × CreateOrderRequest) → List Order × OrderState
  | [] => ([], st)
  | (oid, now, req) :: rest =>
    match CreateOrder st oid now req with
    | Except.ok (o, st') =>
        let (os, stf) := runOrders st' rest
        (o :: os, stf)
    | Except.error _ => runOrders st rest

/-- Sum of the quantities of a list of orders. -/
def sumQuantities (os : List Order) : Int :=
  (os.map Order.quantity).sum

/-! ### Transactions and settlement aggregation -/

/-- A row of the `transactions` table.  `paidAt` is in seconds since the
Unix epoch (Go `time.Time`, UTC). -/
structure Transaction where
  id : Nat
  merchantID : String
  amountCents : Int
  feeCents : Int
  status : TransactionStatus
  paidAt : Int
  deriving DecidableEq, Repr

def secondsPerDay : Int := 86400

/-- `tx.PaidAt.Truncate(24 * time.Hour)` as a day index: the midnight-day
containing `paidAt` (floor division, midnights are multiples of 86400s). -/
def paidDay (t : Transaction) : Int :=
  t.paidAt.fdiv secondsPerDay

/-- A settlement rollup (row of `settlements` / entry of the in-memory
map).  `date` is the midnight-truncated day index. -/
structure Settlement where
  merchantID : String
  date : Int
  grossCents : Int
  feeCents : Int
  netCents : Int
  txnCount : Int
  deriving DecidableEq, Repr

/-- The `(merchant_id, date)` key of a settlement row.  The Go map key is
the string `"{merchant}_{yyyy-mm-dd}"`; since the date part has fixed
shape, that keying is injective in the pair, so the pair is used here. -/
def stKey (s : Settlement) : String × Int :=
  (s.merchantID, s.date)

/-- The settlement key a transaction contributes to. -/
def aggKey (t : Transaction) : String × Int :=
  (t.merchantID, paidDay t)

/-- The settlement created on first sight of a key — the Go code creates
a zeroed row and immediately adds the transaction, so the fresh row
already carries the transaction's amount, fee, `amount - fee`, and a
count of one. -/
def newSettlement (t : Transaction) : Settlement :=
  { merchantID := t.merchantID, date := paidDay t,
    grossCents := t.amountCents, feeCents := t.feeCents,
    netCents := t.amountCents - t.feeCents, txnCount := 1 }

/-- `settlement.GrossCents += tx.AmountCents` etc. -/
def addTx (s : Settlement) (t : Transaction) : Settlement :=
  { s with grossCents := s.grossCents + t.amountCents,
           feeCents := s.feeCents + t.feeCents,
           netCents := s.netCents + (t.amountCents - t.feeCents),
           txnCount := s.txnCount + 1 }

/-- One iteration of `processBatch`'s per-transaction body: the Go map
lookup/update rendered on an association list with unique keys — update
the row with the transaction's key, or append a fresh row when absent. -/
def applyTx : List Settlement → Transaction → List Settlement
  | [], t => [newSettlement t]
  | s :: rest, t =>
    if stKey s = aggKey t then addTx s t :: rest
    else s :: applyTx rest t

/-- The result set `GetBatch` pages over: rows with
`paid_at >= lo AND paid_at < hi AND status = 'COMPLETED'`, `ORDER BY id`. -/
def windowTxs (txs : List Transaction) (lo hi : Int) : List Transaction :=
  List.insertionSort (fun a b => a.id ≤ b.id)
    (txs.filter (fun t =>
      decide (t.status = TransactionStatus.completed) &&
      decide (lo ≤ t.paidAt) && decide (t.paidAt < hi)))

/-- `transactionRepository.GetBatch`: `LIMIT limit OFFSET offset` over the
window's result set. -/
def GetBatch (txs : List Transaction) (offset limit : Nat) (lo hi : Int) :
    List Transaction :=
  ((windowTxs txs lo hi).drop offset).take limit

/-- A row of the `jobs` table.  `progress` is Go's `float64`; the values
the job code writes (`0` and `processed/total*100`) are exact, so `ℚ`
carries them faithfully.  `paramFrom`/`paramTo` are the parsed
`parameters` dates as day indices. -/
structure Job where
  id : Nat
  status : JobStatus
  progress : ℚ
  processed : Int
  total : Int
  paramFrom : Int
  paramTo : Int
  deriving DecidableEq, Repr

/-- The batch loop of `processSettlementJob`: at offset `off` the batch is
`(window.drop off).take b`; an empty batch breaks the loop, otherwise the
batch is aggregated into the map, `processed` grows by the batch length,
`progress = processed / total * 100` and `processed` are persisted via
`UpdateProgress`, and the offset advances by `b`.  `remaining` is
`window.drop off`, so the next remaining list is `remaining.drop b`.  The
`fuel` argument only bounds the number of iterations so that the
recursion is structural; the caller passes more fuel than the loop can
consume (each iteration drops at least one element or stops). -/
def settleLoop (b : Nat) (totalCount : Int) :
    Nat → List Transaction → Int → Job → List Settlement →
    Job × List Settlement
  | 0, _, _, j, m => (j, m)
  | fuel + 1, remaining, processed, j, m =>
    if remaining.take b = [] then (j, m)
    else
      settleLoop b totalCount fuel (remaining.drop b)
        (processed + ((remaining.take b).length : Int))
        { j with
            progress := ((processed + ((remaining.take b).length : Int) : Int) : ℚ)
                          / (totalCount : ℚ) * 100,
            processed := processed + ((remaining.take b).length : Int) }
        ((remaining.take b).foldl applyTx m)

/-- `processSettlementJob` (success path): window `[from_midnight,
to_midnight + 1 day)` (the source adds one day to `to`), total count for
the progress denominator, the `UpdateProgress(0, 0)` write under the
"Update job total" comment (which leaves `total` untouched), then the
batch loop.  Returns the job row as persisted and the in-memory map. -/
def processSettlementJob (txs : List Transaction) (b : Nat) (j : Job) :
    Job × List Settlement :=
  let lo := j.paramFrom * secondsPerDay
  let hi := (j.paramTo + 1) * secondsPerDay
  let win := windowTxs txs lo hi
  settleLoop b (win.length : Int) (win.length + 1) win 0
    { j with progress := 0, processed := 0 } []

/-- `ON CONFLICT ... DO UPDATE SET gross_cents = settlements.gross_cents +
EXCLUDED.gross_cents, ...`: the stored row additively absorbs the
incoming one. -/
def mergeRow (r s : Settlement) : Settlement :=
  { r with grossCents := r.grossCents + s.grossCents,
           feeCents := r.feeCents + s.feeCents,
           netCents := r.netCents + s.netCents,
           txnCount := r.txnCount + s.txnCount }

/-- `settlementRepository.Upsert`: `INSERT ... ON CONFLICT (merchant_id,
date) DO UPDATE ...` — insert, or additively merge into the (unique, by
the DB index on `(merchant_id, date)`) conflicting row. -/
def upsertRow : List Settlement → Settlement → List Settlement
  | [], s => [s]
  | r :: rest, s =>
    if stKey r = stKey s then mergeRow r s :: rest
    else r :: upsertRow rest s

/-- `saveSettlements`: upsert every accumulated row in one transaction. -/
def saveSettlements (tbl : List Settlement) (m : List Settlement) :
    List Settlement :=
  m.foldl upsertRow tbl

/-- `processJob` on the success path of a settlement job: `MarkStarted`
(status RUNNING), run the aggregator, persist the rollups, `MarkCompleted`
(status COMPLETED).  Returns the final job row and settlements table. -/
def processJob (txs : List Transaction) (b : Nat) (tbl : List Settlement)
    (j : Job) : Job × List Settlement :=
  let r := processSettlementJob txs b { j with status := JobStatus.running }
  ({ r.1 with status := JobStatus.completed }, saveSettlements tbl r.2)

/-! ### Per-key observations on settlement lists -/

/-- The rows of `m` carrying key `k`. -/
def keyRows (k : String × Int) (m : List Settlement) : List Settlement :=
  m.filter (fun s => decide (stKey s = k))

def keyGross (k : String × Int) (m : List Settlement) : Int :=
  ((keyRows k m).map Settlement.grossCents).sum

def keyFee (k : String × Int) (m : List Settlement) : Int :=
  ((keyRows k m).map Settlement.feeCents).sum

def keyNet (k : String × Int) (m : List Settlement) : Int :=
  ((keyRows k m).map Settlement.netCents).sum

def keyCount (k : String × Int) (m : List Settlement) : Int :=
  ((keyRows k m).map Settlement.txnCount).sum

/-- Number of rows of `m` carrying key `k`. -/
def rowCount (k : String × Int) (m : List Settlement) : Nat :=
  (keyRows k m).length

/-- The transactions of `l` contributing to key `k`. -/
def contributors (k : String × Int) (l : List Transaction) :
    List Transaction :=
  l.filter (fun t => decide (aggKey t = k))

/-! ### Date parsing and the job engine -/

def isDigit (c : Char) : Bool :=
  decide ('0' ≤ c) && decide (c ≤ '9')

def digitVal (c : Char) : Nat :=
  c.toNat - '0'.toNat

def isLeapYear (y : Nat) : Bool :=
  (y % 4 == 0 && y % 100 != 0) || y % 400 == 0

def daysInMonth (y m : Nat) : Nat :=
  if m = 2 then (if isLeapYear y then 29 else 28)
  else if m = 4 ∨ m = 6 ∨ m = 9 ∨ m = 11 then 30
  else 31

/-- Days since 1970-01-01 of a proleptic-Gregorian civil date. -/
def daysFromCivil (y m d : Nat) : Int :=
  let y' : Int := if m ≤ 2 then (y : Int) - 1 else (y : Int)
  let era : Int := (if 0 ≤ y' then y' else y' - 399) / 400
  let yoe : Int := y' - era * 400
  let mp : Int := ((m : Int) + 9) % 12
  let doy : Int := (153 * mp + 2) / 5 + (d : Int) - 1
  let doe : Int := yoe * 365 + yoe / 4 - yoe / 100 + doy
  era * 146097 + doe - 719468

/-- `time.Parse("2006-01-02", s)`: exactly `YYYY-MM-DD` with numeric
fields, month in 1..12 and day within the month; the parsed midnight is
reported as a day index. -/
def parseDate (s : String) : Option Int :=
  match s.toList with
  | [y1, y2, y3, y4, '-', m1, m2, '-', d1, d2] =>
    if isDigit y1 && isDigit y2 && isDigit y3 && isDigit y4 &&
       isDigit m1 && isDigit m2 && isDigit d1 && isDigit d2 then
      let y := ((digitVal y1 * 10 + digitVal y2) * 10 + digitVal y3) * 10
                 + digitVal y4
      let m := digitVal m1 * 10 + digitVal m2
      let d := digitVal d1 * 10 + digitVal d2
      if 1 ≤ m ∧ m ≤ 12 ∧ 1 ≤ d ∧ d ≤ daysInMonth y m then
        some (daysFromCivil y m d)
      else none
    else none
  | _ => none

/-- Errors surfaced by the job service. -/
inductive JobErr
  | validation
  | jobNotFound
  | jobAlreadyCancelled
  | internal
  deriving DecidableEq, Repr

/-- The job engine's shared state: the `jobs` table and the bounded job
queue (a buffered channel of capacity `queueCap`). -/
structure EngineState where
  jobs : List Job
  queue : List Job
  queueCap : Nat
  deriving Repr

/-- `JobProcessor.QueueJob`: non-blocking send on the bounded channel; a
full buffer falls through to the default branch, which reports "job queue
is full".  (The `ctx.Done()` branch likewise reports an error without
enqueueing.) -/
def QueueJob (st : EngineState) (j : Job) : Except JobErr EngineState :=
  if st.queue.length < st.queueCap then
    Except.ok { st with queue := st.queue ++ [j] }
  else
    Except.error JobErr.internal

/-- `jobService.CreateSettlementJob`: parse both dates (`Validation` on
failure), reject `to < from` with `Validation` before anything is
persisted, create the QUEUED job row (`Total: 0, // Will be calculated
when job starts`), then attempt to enqueue; an enqueue failure returns an
error to the caller, but the row has already been persisted. -/
def CreateSettlementJob (st : EngineState) (newId : Nat)
    (fromS toS : String) : Except JobErr Job × EngineState :=
  match parseDate fromS with
  | none => (Except.error JobErr.validation, st)
  | some f =>
    match parseDate toS with
    | none => (Except.error JobErr.validation, st)
    | some t =>
      if t < f then (Except.error JobErr.validation, st)
      else
        let job : Job := { id := newId, status := JobStatus.queued,
                           progress := 0, processed := 0, total := 0,
                           paramFrom := f, paramTo := t }
        let st1 : EngineState := { st with jobs := st.jobs ++ [job] }
        match QueueJob st1 job with
        | Except.ok st2 => (Except.ok job, st2)
        | Except.error _ => (Except.error JobErr.internal, st1)

/-- A worker's receive on the job queue channel (`case job, ok :=
<-jp.jobQueue`). -/
def workerPick (st : EngineState) : Option (Job × EngineState) :=
  match st.queue with
  | [] => none
  | j :: rest => some (j, { st with queue := rest })

/-- The jobs workers pick up over `n` successive receives. -/
def runWorkers (st : EngineState) : Nat → List Job
  | 0 => []
  | n + 1 =>
    match workerPick st with
    | none => []
    | some (j, st') => j :: runWorkers st' n

/-- `jobRepository.Cancel` acting on the job's row: `UPDATE jobs SET
status = CANCELLED WHERE id = $2 AND status IN (QUEUED, RUNNING)`; zero
affected rows yield `ErrJobAlreadyCancelled` and the row is untouched. -/
def Cancel (j : Job) : Except JobErr Unit × Job :=
  if j.status = JobStatus.queued ∨ j.status = JobStatus.running then
    (Except.ok (), { j with status := JobStatus.cancelled })
  else
    (Except.error JobErr.jobAlreadyCancelled, j)

/-! ### Order listing -/

/-- `ORDER BY created_at DESC`. -/
def orderDesc (a b : Order) : Prop :=
  b.createdAt ≤ a.createdAt

instance : DecidableRel orderDesc :=
  fun a b => Int.decLe b.createdAt a.createdAt

/-- `orderRepository.List`: `ORDER BY created_at DESC LIMIT $1 OFFSET $2`. -/
def listRepo (orders : List Order) (limit offset : Nat) : List Order :=
  ((List.insertionSort orderDesc orders).drop offset).take limit

/-- `orderService.ListOrders` limit normalization:
`if limit <= 0 || limit > 100 { limit = 10 }`. -/
def effectiveLimit (limit : Int) : Int :=
  if limit ≤ 0 ∨ 100 < limit then 10 else limit

/-- `orderService.ListOrders` offset normalization:
`if offset < 0 { offset = 0 }`. -/
def effectiveOffset (offset : Int) : Int :=
  if offset < 0 then 0 else offset

/-- `orderService.ListOrders`. -/
def ListOrders (orders : List Order) (limit offset : Int) : List Order :=
  listRepo orders (effectiveLimit limit).toNat (effectiveOffset offset).toNat

/-! ### Concrete example inputs (used to instantiate the theorems) -/

def exProduct : Product :=
  { id := 1, stock := 10, price := 1000, version := 1 }

def exState : OrderState :=
  { product := exProduct, orders := [] }

def exReq : CreateOrderRequest :=
  { productID := 1, quantity := 2, buyerID := "buyer_1" }

/-- Three placements against a stock of 10: quantities 2 and 5 succeed,
quantity 7 runs out of stock. -/
def exReqs : List (Nat × Int × CreateOrderRequest) :=
  [(1, 0, exReq), (2, 1, { exReq with quantity := 5 }),
   (3, 2, { exReq with quantity := 7 })]

def exTx1 : Transaction :=
  { id := 1, merchantID := "merchant_1", amountCents := 10000,
    feeCents := 300, status := TransactionStatus.completed,
    paidAt := 20 * 86400 }

def exTx2 : Transaction :=
  { id := 2, merchantID := "merchant_1", amountCents := 20000,
    feeCents := 600, status := TransactionStatus.completed,
    paidAt := 20 * 86400 + 3600 }

def exTx3 : Transaction :=
  { id := 3, merchantID := "merchant_2", amountCents := 15000,
    feeCents := 450, status := TransactionStatus.completed,
    paidAt := 20 * 86400 + 7200 }

def exTxs : List Transaction :=
  [exTx1, exTx2, exTx3]

def exJob : Job :=
  { id := 5, status := JobStatus.queued, progress := 0, processed := 0,
    total := 0, paramFrom := 19, paramTo := 21 }

/-- An engine whose bounded queue is already full. -/
def exFullEngine : EngineState :=
  { jobs := [], queue := [exJob], queueCap := 1 }

/-- An idle engine. -/
def exEngine0 : EngineState :=
  { jobs := [], queue := [], queueCap := 4 }

end Indico

namespace Indico

/-- C2 -- `UpdateStock (id, qty, expected_version)` succeeds exactly when
the stored row has `version = expected_version` and `stock ≥ qty`, in which
case it decrements stock by `qty` and bumps version by 1; on zero affected
rows the follow-up read yields `OutOfStock` iff the current stock is below
`qty` and `ConcurrencyConflict` otherwise (i.e. iff `stock ≥ qty` but the
version mismatches); no other outcome is possible for an existing row. -/
theorem updateStock_spec (p : Product) (qty v : Int) :
    (∀ p', UpdateStock p qty v = Except.ok p' ↔
      (p.version = v ∧ qty ≤ p.stock ∧
        p' = { p with stock := p.stock - qty, version := p.version + 1 })) ∧
    (UpdateStock p qty v = Except.error StockErr.outOfStock ↔
      p.stock < qty) ∧
    (UpdateStock p qty v = Except.error StockErr.concurrencyConflict ↔
      (p.version ≠ v ∧ qty ≤ p.stock)) := by
  unfold UpdateStock
  refine ⟨fun p' => ?_, ?_, ?_⟩ <;> split_ifs with h1 h2
  · simp only [Except.ok.injEq]
    exact ⟨fun h => ⟨h1.1, h1.2, h.symm⟩, fun h => h.2.2.symm⟩
  · exact ⟨False.elim, fun h => absurd ⟨h.1, h.2.1⟩ h1⟩
  · exact ⟨False.elim, fun h => absurd ⟨h.1, h.2.1⟩ h1⟩
  · exact ⟨False.elim, fun h => absurd h (not_lt.mpr h1.2)⟩
  · exact ⟨fun _ => h2, fun _ => rfl⟩
  · refine ⟨fun h => ?_, fun h => absurd h h2⟩
    injection h with h
    exact StockErr.noConfusion h
  · exact ⟨False.elim, fun h => absurd h1.1 h.1⟩
  · refine ⟨fun h => ?_, fun h => absurd h.2 (not_le.mpr h2)⟩
    injection h with h
    exact StockErr.noConfusion h
  · exact ⟨fun _ => ⟨fun hv => h1 ⟨hv, not_lt.mp h2⟩, not_lt.mp h2⟩, fun _ => rfl⟩

/-- Witness for `updateStock_spec` at a concrete product. -/
theorem updateStock_spec_witness :
    UpdateStock exProduct 3 1
      = Except.ok { id := 1, stock := 7, price := 1000, version := 2 } := by
  refine ((updateStock_spec exProduct 3 1).1 _).mpr ⟨?_, ?_, ?_⟩ <;> decide

/-- Inversion of a successful conditional stock update. -/
theorem updateStock_ok_inv {p : Product} {qty v : Int} {p' : Product}
    (h : UpdateStock p qty v = Except.ok p') :
    p.version = v ∧ qty ≤ p.stock ∧
      p' = { p with stock := p.stock - qty, version := p.version + 1 } := by
  unfold UpdateStock at h
  split_ifs at h with h1 h2
  exact ⟨h1.1, h1.2, ((Except.ok.injEq _ _).mp h).symm⟩

/-- What a successful `CreateOrder` guarantees: the committed product lost
exactly the order's quantity of stock, stayed non-negative, and gained a
version; the in-memory order is CONFIRMED while the persisted row is the
PENDING one. -/
theorem createOrder_ok {st : OrderState} {oid : Nat} {now : Int}
    {req : CreateOrderRequest} {o : Order} {st' : OrderState}
    (h : CreateOrder st oid now req = Except.ok (o, st')) :
    o.quantity = req.quantity ∧ 1 ≤ o.quantity ∧
    st'.product.stock = st.product.stock - o.quantity ∧
    0 ≤ st'.product.stock ∧
    st.product.version < st'.product.version ∧
    o.status = OrderStatus.confirmed ∧
    st'.orders = mkPendingOrder st oid now req :: st.orders := by
  unfold CreateOrder at h
  split_ifs at h with hq hp hs
  split at h
  · exact Except.noConfusion h
  · exact Except.noConfusion h
  · rename_i p' heq
    obtain ⟨hv, hle, hp'⟩ := updateStock_ok_inv heq
    injection h with h
    injection h with ho hst
    subst ho
    subst hst
    refine ⟨rfl, ?_, ?_, ?_, ?_, rfl, rfl⟩
    · simp only [mkPendingOrder]
      omega
    · simp only [mkPendingOrder, hp']
    · simp only [mkPendingOrder, hp']
      omega
    · simp only [hp']
      omega

/-- Folding a sequence of placements: the final stock accounts exactly for
the successful quantities, stays non-negative, and each success has
quantity at least one. -/
theorem runOrders_spec (reqs : List (Nat × Int × CreateOrderRequest)) :
    ∀ st : OrderState,
      (runOrders st reqs).2.product.stock
          = st.product.stock - sumQuantities (runOrders st reqs).1 ∧
      ((runOrders st reqs).1.length : Int)
          ≤ sumQuantities (runOrders st reqs).1 ∧
      (0 ≤ st.product.stock → 0 ≤ (runOrders st reqs).2.product.stock) := by
  induction reqs with
  | nil =>
    intro st
    simp [runOrders, sumQuantities]
  | cons r rest ih =>
    intro st
    obtain ⟨oid, now, req⟩ := r
    cases hco : CreateOrder st oid now req with
    | error e =>
      simpa [runOrders, hco] using ih st
    | ok res =>
      obtain ⟨o, st1⟩ := res
      obtain ⟨hq, hq1, hstock, hnn, hver, hconf, hord⟩ := createOrder_ok hco
      obtain ⟨iha, ihb, ihc⟩ := ih st1
      simp only [runOrders, hco, sumQuantities, List.map_cons, List.sum_cons,
        List.length_cons] at iha ihb ihc ⊢
      refine ⟨?_, ?_, ?_⟩
      · omega
      · push_cast
        omega
      · intro _
        exact ihc hnn

/-- C1 -- for every product and every sequence of `create_order` calls
referencing it (serialized by the row lock), the number of successful
orders is at most the initial stock; the final stock equals the initial
stock minus the sum of the successful quantities; the final stock is never
negative; and every successful call decrements stock by exactly its
quantity and strictly increases the product version. -/
theorem createOrder_stock_safety (st : OrderState)
    (reqs : List (Nat × Int × CreateOrderRequest))
    (h : 0 ≤ st.product.stock) :
    ((runOrders st reqs).1.length : Int) ≤ st.product.stock ∧
    (runOrders st reqs).2.product.stock
        = st.product.stock - sumQuantities (runOrders st reqs).1 ∧
    0 ≤ (runOrders st reqs).2.product.stock ∧
    (∀ st₀ oid now req o st₁,
      CreateOrder st₀ oid now req = Except.ok (o, st₁) →
        st₁.product.stock = st₀.product.stock - o.quantity ∧
        st₀.product.version < st₁.product.version) := by
  obtain ⟨h1, h2, h3⟩ := runOrders_spec reqs st
  refine ⟨?_, h1, h3 h, fun st₀ oid now req o st₁ hco => ?_⟩
  · have := h3 h
    omega
  · obtain ⟨_, _, hstock, _, hver, _, _⟩ := createOrder_ok hco
    exact ⟨hstock, hver⟩

/-- Witness for `createOrder_stock_safety` on a stock of 10 with
placements of quantity 2, 5 and 7 (the last one fails). -/
theorem createOrder_stock_safety_witness :
    ((runOrders exState exReqs).1.length : Int) ≤ exState.product.stock :=
  (createOrder_stock_safety exState exReqs (by decide)).1

/-- C3 -- evidence for the divergence between the claim and the code: on a
successful `create_order` the row inserted into storage carries status
PENDING (the later CONFIRMED assignment touches only the in-memory object,
which is what the caller receives), so persistent storage does hold a
PENDING order row, contradicting the claimed invariant. -/
theorem createOrder_persisted_status :
    (CreateOrder exState 7 0 exReq).toOption.map
        (fun r => (r.1.status, r.2.orders.map Order.status))
      = some (OrderStatus.confirmed, [OrderStatus.pending]) := by
  decide

/-! ### Per-key bookkeeping on settlement lists -/

theorem keyRows_nil (k : String × Int) : keyRows k [] = [] := rfl

theorem keyRows_cons (k : String × Int) (s : Settlement) (l : List Settlement) :
    keyRows k (s :: l)
      = if stKey s = k then s :: keyRows k l else keyRows k l := by
  by_cases h : stKey s = k <;> simp [keyRows, List.filter_cons, h]

theorem keyGross_nil (k : String × Int) : keyGross k [] = 0 := rfl

theorem keyFee_nil (k : String × Int) : keyFee k [] = 0 := rfl

theorem keyNet_nil (k : String × Int) : keyNet k [] = 0 := rfl

theorem keyCount_nil (k : String × Int) : keyCount k [] = 0 := rfl

theorem rowCount_nil (k : String × Int) : rowCount k [] = 0 := rfl

theorem keyGross_cons (k : String × Int) (s : Settlement) (l : List Settlement) :
    keyGross k (s :: l)
      = (if stKey s = k then s.grossCents else 0) + keyGross k l := by
  by_cases h : stKey s = k <;> simp [keyGross, keyRows_cons, h]

theorem keyFee_cons (k : String × Int) (s : Settlement) (l : List Settlement) :
    keyFee k (s :: l)
      = (if stKey s = k then s.feeCents else 0) + keyFee k l := by
  by_cases h : stKey s = k <;> simp [keyFee, keyRows_cons, h]

theorem keyNet_cons (k : String × Int) (s : Settlement) (l : List Settlement) :
    keyNet k (s :: l)
      = (if stKey s = k then s.netCents else 0) + keyNet k l := by
  by_cases h : stKey s = k <;> simp [keyNet, keyRows_cons, h]

theorem keyCount_cons (k : String × Int) (s : Settlement) (l : List Settlement) :
    keyCount k (s :: l)
      = (if stKey s = k then s.txnCount else 0) + keyCount k l := by
  by_cases h : stKey s = k <;> simp [keyCount, keyRows_cons, h]

theorem rowCount_cons (k : String × Int) (s : Settlement) (l : List Settlement) :
    rowCount k (s :: l)
      = (if stKey s = k then 1 else 0) + rowCount k l := by
  by_cases h : stKey s = k <;> simp [rowCount, keyRows_cons, h] <;> omega

/-- Effect of one `processBatch` iteration on every per-key observation. -/
theorem applyTx_stats (t : Transaction) (k : String × Int) :
    ∀ m : List Settlement,
      keyGross k (applyTx m t)
          = keyGross k m + (if aggKey t = k then t.amountCents else 0) ∧
      keyFee k (applyTx m t)
          = keyFee k m + (if aggKey t = k then t.feeCents else 0) ∧
      keyNet k (applyTx m t)
          = keyNet k m + (if aggKey t = k then t.amountCents - t.feeCents else 0) ∧
      keyCount k (applyTx m t)
          = keyCount k m + (if aggKey t = k then 1 else 0) ∧
      rowCount k (applyTx m t)
          = (if aggKey t = k then max (rowCount k m) 1 else rowCount k m) := by
  intro m
  induction m with
  | nil =>
    have hkey : stKey (newSettlement t) = aggKey t := rfl
    have hg : (newSettlement t).grossCents = t.amountCents := rfl
    have hf : (newSettlement t).feeCents = t.feeCents := rfl
    have hn : (newSettlement t).netCents = t.amountCents - t.feeCents := rfl
    have hc : (newSettlement t).txnCount = 1 := rfl
    simp only [applyTx, keyGross_cons, keyFee_cons, keyNet_cons, keyCount_cons,
      rowCount_cons, keyGross_nil, keyFee_nil, keyNet_nil, keyCount_nil,
      rowCount_nil, hkey, hg, hf, hn, hc]
    by_cases hk : aggKey t = k <;> simp [hk] <;> omega
  | cons s rest ih =>
    obtain ⟨ihg, ihf, ihn, ihc, ihr⟩ := ih
    have haddkey : stKey (addTx s t) = stKey s := rfl
    by_cases hst : stKey s = aggKey t
    · have hg : (addTx s t).grossCents = s.grossCents + t.amountCents := rfl
      have hf : (addTx s t).feeCents = s.feeCents + t.feeCents := rfl
      have hn : (addTx s t).netCents
          = s.netCents + (t.amountCents - t.feeCents) := rfl
      have hc : (addTx s t).txnCount = s.txnCount + 1 := rfl
      simp only [applyTx, if_pos hst, keyGross_cons, keyFee_cons, keyNet_cons,
        keyCount_cons, rowCount_cons, haddkey, hg, hf, hn, hc]
      by_cases hsk : stKey s = k
      · have hk : aggKey t = k := hst ▸ hsk
        simp [hsk, hk] <;> omega
      · have hk : ¬ aggKey t = k := fun h => hsk (hst.trans h)
        simp [hsk, hk]
    · simp only [applyTx, if_neg hst, keyGross_cons, keyFee_cons, keyNet_cons,
        keyCount_cons, rowCount_cons, ihg, ihf, ihn, ihc, ihr]
      by_cases hk : aggKey t = k
      · by_cases hsk : stKey s = k
        · exact absurd (hsk.trans hk.symm) hst
        · simp [hk, hsk] <;> omega
      · by_cases hsk : stKey s = k <;> simp [hk, hsk] <;> omega

theorem contributors_cons (k : String × Int) (t : Transaction)
    (l : List Transaction) :
    contributors k (t :: l)
      = if aggKey t = k then t :: contributors k l else contributors k l := by
  by_cases h : aggKey t = k <;> simp [contributors, List.filter_cons, h]

theorem sum_map_sub (f g : Transaction → Int) :
    ∀ l : List Transaction,
      (l.map (fun t => f t - g t)).sum = (l.map f).sum - (l.map g).sum := by
  intro l
  induction l with
  | nil => simp
  | cons t rest ih =>
    simp only [List.map_cons, List.sum_cons, ih]
    omega

/-- Effect of aggregating a whole transaction list on every per-key
observation: per-key sums grow by the contributors' sums, and a key ends
up with exactly one row once it has any contributor. -/
theorem foldl_applyTx_stats (k : String × Int) :
    ∀ (txs : List Transaction) (m : List Settlement),
      keyGross k (txs.foldl applyTx m)
          = keyGross k m + ((contributors k txs).map Transaction.amountCents).sum ∧
      keyFee k (txs.foldl applyTx m)
          = keyFee k m + ((contributors k txs).map Transaction.feeCents).sum ∧
      keyNet k (txs.foldl applyTx m)
          = keyNet k m
            + ((contributors k txs).map (fun t => t.amountCents - t.feeCents)).sum ∧
      keyCount k (txs.foldl applyTx m)
          = keyCount k m + ((contributors k txs).length : Int) ∧
      rowCount k (txs.foldl applyTx m)
          = (if contributors k txs = [] then rowCount k m
             else max (rowCount k m) 1) := by
  intro txs
  induction txs with
  | nil =>
    intro m
    simp [contributors]
  | cons t rest ih =>
    intro m
    obtain ⟨ihg, ihf, ihn, ihc, ihr⟩ := ih (applyTx m t)
    obtain ⟨ag, af, an, ac, ar⟩ := applyTx_stats t k m
    simp only [List.foldl_cons, contributors_cons, ihg, ihf, ihn, ihc, ihr,
      ag, af, an, ac, ar, List.map_cons, List.sum_cons, List.length_cons]
    by_cases hk : aggKey t = k <;>
      by_cases h0 : contributors k rest = [] <;>
      simp [hk, h0] <;> push_cast <;> omega

/-- Effect of one additive upsert on every per-key observation. -/
theorem upsertRow_stats (s : Settlement) (k : String × Int) :
    ∀ tbl : List Settlement,
      keyGross k (upsertRow tbl s)
          = keyGross k tbl + (if stKey s = k then s.grossCents else 0) ∧
      keyFee k (upsertRow tbl s)
          = keyFee k tbl + (if stKey s = k then s.feeCents else 0) ∧
      keyNet k (upsertRow tbl s)
          = keyNet k tbl + (if stKey s = k then s.netCents else 0) ∧
      keyCount k (upsertRow tbl s)
          = keyCount k tbl + (if stKey s = k then s.txnCount else 0) ∧
      rowCount k (upsertRow tbl s)
          = (if stKey s = k then max (rowCount k tbl) 1 else rowCount k tbl) := by
  intro tbl
  induction tbl with
  | nil =>
    simp only [upsertRow, keyGross_cons, keyFee_cons, keyNet_cons,
      keyCount_cons, rowCount_cons, keyGross_nil, keyFee_nil, keyNet_nil,
      keyCount_nil, rowCount_nil]
    by_cases hk : stKey s = k <;> simp [hk] <;> omega
  | cons r rest ih =>
    obtain ⟨ihg, ihf, ihn, ihc, ihr⟩ := ih
    have hmk : stKey (mergeRow r s) = stKey r := rfl
    by_cases hrs : stKey r = stKey s
    · have hg : (mergeRow r s).grossCents = r.grossCents + s.grossCents := rfl
      have hf : (mergeRow r s).feeCents = r.feeCents + s.feeCents := rfl
      have hn : (mergeRow r s).netCents = r.netCents + s.netCents := rfl
      have hc : (mergeRow r s).txnCount = r.txnCount + s.txnCount := rfl
      simp only [upsertRow, if_pos hrs, keyGross_cons, keyFee_cons, keyNet_cons,
        keyCount_cons, rowCount_cons, hmk, hg, hf, hn, hc]
      by_cases hrk : stKey r = k
      · have hk : stKey s = k := hrs.symm.trans hrk
        simp [hrk, hk] <;> omega
      · have hk : ¬ stKey s = k := fun h => hrk (hrs.trans h)
        simp [hrk, hk]
    · simp only [upsertRow, if_neg hrs, keyGross_cons, keyFee_cons, keyNet_cons,
        keyCount_cons, rowCount_cons, ihg, ihf, ihn, ihc, ihr]
      by_cases hk : stKey s = k
      · by_cases hrk : stKey r = k
        · exact absurd (hrk.trans hk.symm) hrs
        · simp [hk, hrk] <;> omega
      · by_cases hrk : stKey r = k <;> simp [hk, hrk] <;> omega

/-- Effect of upserting a whole batch of rows (`saveSettlements`): per-key
sums are added, and a key gains a (unique) row once the batch contains
one. -/
theorem foldl_upsertRow_stats (k : String × Int) :
    ∀ (rows tbl : List Settlement),
      keyGross k (rows.foldl upsertRow tbl) = keyGross k tbl + keyGross k rows ∧
      keyFee k (rows.foldl upsertRow tbl) = keyFee k tbl + keyFee k rows ∧
      keyNet k (rows.foldl upsertRow tbl) = keyNet k tbl + keyNet k rows ∧
      keyCount k (rows.foldl upsertRow tbl) = keyCount k tbl + keyCount k rows ∧
      rowCount k (rows.foldl upsertRow tbl)
          = (if keyRows k rows = [] then rowCount k tbl
             else max (rowCount k tbl) 1) := by
  intro rows
  induction rows with
  | nil =>
    intro tbl
    simp [keyGross_nil, keyFee_nil, keyNet_nil, keyCount_nil, keyRows_nil]
  | cons r rest ih =>
    intro tbl
    obtain ⟨ihg, ihf, ihn, ihc, ihr⟩ := ih (upsertRow tbl r)
    obtain ⟨ag, af, an, ac, ar⟩ := upsertRow_stats r k tbl
    simp only [List.foldl_cons, keyRows_cons, keyGross_cons, keyFee_cons,
      keyNet_cons, keyCount_cons, ihg, ihf, ihn, ihc, ihr, ag, af, an, ac, ar]
    by_cases hk : stKey r = k <;>
      by_cases h0 : keyRows k rest = [] <;>
      simp [hk, h0] <;> omega

/-- The batch loop aggregates exactly the remaining window (provided the
batch size is positive and the fuel covers the list). -/
theorem settleLoop_snd (b : Nat) (tc : Int) (hb : 0 < b) :
    ∀ (fuel : Nat) (remaining : List Transaction) (processed : Int)
      (j : Job) (m : List Settlement),
      remaining.length ≤ fuel →
      (settleLoop b tc fuel remaining processed j m).2
        = remaining.foldl applyTx m := by
  intro fuel
  induction fuel with
  | zero =>
    intro remaining processed j m hlen
    have h0 : remaining = [] := List.length_eq_zero.mp (Nat.le_zero.mp hlen)
    subst h0
    simp [settleLoop]
  | succ fuel ih =>
    intro remaining processed j m hlen
    by_cases hempty : remaining.take b = []
    · rcases List.take_eq_nil_iff.mp hempty with hb0 | hnil
      · exact absurd hb0 hb.ne'
      · subst hnil
        simp [settleLoop]
    · simp only [settleLoop, if_neg hempty]
      have h1 : remaining ≠ [] := by
        intro h0
        exact hempty (by simp [h0])
      have h2 : remaining.length ≠ 0 :=
        fun h0 => h1 (List.length_eq_zero.mp h0)
      have hlen' : (remaining.drop b).length ≤ fuel := by
        simp only [List.length_drop]
        omega
      rw [ih _ _ _ _ hlen']
      conv_rhs => rw [← List.take_append_drop b remaining]
      rw [List.foldl_append]

/-- The job row the batch loop leaves behind: untouched when the window is
empty (the loop breaks before any progress write), otherwise carrying the
final `UpdateProgress` write. -/
theorem settleLoop_fst (b : Nat) (tc : Int) (hb : 0 < b) :
    ∀ (fuel : Nat) (remaining : List Transaction) (processed : Int)
      (j : Job) (m : List Settlement),
      remaining.length ≤ fuel →
      (settleLoop b tc fuel remaining processed j m).1
        = if remaining = [] then j
          else { j with
                   progress := ((processed + (remaining.length : Int) : Int) : ℚ)
                                 / (tc : ℚ) * 100,
                   processed := processed + (remaining.length : Int) } := by
  intro fuel
  induction fuel with
  | zero =>
    intro remaining processed j m hlen
    have h0 : remaining = [] := List.length_eq_zero.mp (Nat.le_zero.mp hlen)
    subst h0
    simp [settleLoop]
  | succ fuel ih =>
    intro remaining processed j m hlen
    by_cases hempty : remaining.take b = []
    · rcases List.take_eq_nil_iff.mp hempty with hb0 | hnil
      · exact absurd hb0 hb.ne'
      · subst hnil
        simp [settleLoop]
    · have hne : remaining ≠ [] := by
        intro h0
        exact hempty (by simp [h0])
      have h2 : remaining.length ≠ 0 :=
        fun h0 => hne (List.length_eq_zero.mp h0)
      have hlen' : (remaining.drop b).length ≤ fuel := by
        simp only [List.length_drop]
        omega
      simp only [settleLoop, if_neg hempty]
      rw [ih _ _ _ _ hlen']
      by_cases hd : remaining.drop b = []
      · rw [if_pos hd, if_neg hne]
        have hble : remaining.length ≤ b := List.drop_eq_nil_iff.mp hd
        rw [List.take_of_length_le hble]
      · rw [if_neg hd, if_neg hne]
        have hnat : (remaining.take b).length + (remaining.drop b).length
            = remaining.length := by
          simp only [List.length_take, List.length_drop]
          omega
        have harith : processed + ((remaining.take b).length : Int)
              + ((remaining.drop b).length : Int)
            = processed + (remaining.length : Int) := by
          have hcast : ((remaining.take b).length : Int)
              + ((remaining.drop b).length : Int)
              = (remaining.length : Int) := by
            exact_mod_cast congrArg (fun n : Nat => (n : Int)) hnat
          omega
        rw [harith]

/-- The settlement map produced by `processSettlementJob` is the
aggregation of exactly the window's transactions. -/
theorem processSettlementJob_snd (txs : List Transaction) (b : Nat) (j : Job)
    (hb : 0 < b) :
    (processSettlementJob txs b j).2
      = (windowTxs txs (j.paramFrom * secondsPerDay)
          ((j.paramTo + 1) * secondsPerDay)).foldl applyTx [] := by
  unfold processSettlementJob
  exact settleLoop_snd b _ hb _ _ _ _ _ (Nat.le_succ _)

/-- The job row `processSettlementJob` persists: progress and processed
are zeroed, and only a non-empty window brings them to
`100 * count / count` and `count`; the `total` column is never written. -/
theorem processSettlementJob_fst (txs : List Transaction) (b : Nat) (j : Job)
    (hb : 0 < b) :
    (processSettlementJob txs b j).1
      = if windowTxs txs (j.paramFrom * secondsPerDay)
            ((j.paramTo + 1) * secondsPerDay) = []
        then { j with progress := 0, processed := 0 }
        else { j with
                 progress :=
                   (((windowTxs txs (j.paramFrom * secondsPerDay)
                       ((j.paramTo + 1) * secondsPerDay)).length : Int) : ℚ)
                     / (((windowTxs txs (j.paramFrom * secondsPerDay)
                       ((j.paramTo + 1) * secondsPerDay)).length : Int) : ℚ)
                     * 100,
                 processed :=
                   ((windowTxs txs (j.paramFrom * secondsPerDay)
                       ((j.paramTo + 1) * secondsPerDay)).length : Int) } := by
  unfold processSettlementJob
  rw [settleLoop_fst b _ hb _ _ _ _ _ (Nat.le_succ _)]
  by_cases h : windowTxs txs (j.paramFrom * secondsPerDay)
      ((j.paramTo + 1) * secondsPerDay) = []
  · rw [if_pos h, if_pos h]
  · rw [if_neg h, if_neg h]
    simp only [zero_add]

/-- Membership in `GetBatch`'s result set. -/
theorem mem_windowTxs (txs : List Transaction) (lo hi : Int) (t : Transaction) :
    t ∈ windowTxs txs lo hi ↔
      t ∈ txs ∧ t.status = TransactionStatus.completed ∧
        lo ≤ t.paidAt ∧ t.paidAt < hi := by
  unfold windowTxs
  rw [(List.perm_insertionSort _ _).mem_iff, List.mem_filter]
  simp [and_assoc]

theorem mem_contributors (k : String × Int) (l : List Transaction)
    (t : Transaction) :
    t ∈ contributors k l ↔ t ∈ l ∧ aggKey t = k := by
  simp [contributors, List.mem_filter]

/-- A key with no rows contributes zero to every per-key observation. -/
theorem keyStats_of_empty (k : String × Int) (m : List Settlement)
    (h : keyRows k m = []) :
    keyGross k m = 0 ∧ keyFee k m = 0 ∧ keyNet k m = 0 ∧
    keyCount k m = 0 ∧ rowCount k m = 0 := by
  simp [keyGross, keyFee, keyNet, keyCount, rowCount, h]

/-- C4 -- for every COMPLETED transaction `t` whose `paid_at` lies in the
window, a single settlement run over a table with no prior row for `t`'s
`(merchant, date)` key leaves exactly one row for that key, whose gross,
fee and txn_count are the sums over the window's contributors to the key
and whose net is `gross - fee`. -/
theorem settlement_run_spec (txs : List Transaction) (b : Nat)
    (tbl : List Settlement) (j : Job) (t : Transaction) (hb : 0 < b)
    (ht : t ∈ txs) (hst : t.status = TransactionStatus.completed)
    (hlo : j.paramFrom * secondsPerDay ≤ t.paidAt)
    (hhi : t.paidAt < (j.paramTo + 1) * secondsPerDay)
    (htbl : keyRows (aggKey t) tbl = []) :
    rowCount (aggKey t) (processJob txs b tbl j).2 = 1 ∧
    keyGross (aggKey t) (processJob txs b tbl j).2
        = ((contributors (aggKey t)
              (windowTxs txs (j.paramFrom * secondsPerDay)
                ((j.paramTo + 1) * secondsPerDay))).map
            Transaction.amountCents).sum ∧
    keyFee (aggKey t) (processJob txs b tbl j).2
        = ((contributors (aggKey t)
              (windowTxs txs (j.paramFrom * secondsPerDay)
                ((j.paramTo + 1) * secondsPerDay))).map
            Transaction.feeCents).sum ∧
    keyNet (aggKey t) (processJob txs b tbl j).2
        = keyGross (aggKey t) (processJob txs b tbl j).2
          - keyFee (aggKey t) (processJob txs b tbl j).2 ∧
    keyCount (aggKey t) (processJob txs b tbl j).2
        = ((contributors (aggKey t)
              (windowTxs txs (j.paramFrom * secondsPerDay)
                ((j.paramTo + 1) * secondsPerDay))).length : Int) := by
  obtain ⟨htbl0g, htbl0f, htbl0n, htbl0c, htbl0r⟩ := keyStats_of_empty _ _ htbl
  have hpj : (processJob txs b tbl j).2
      = ((processSettlementJob txs b
            { j with status := JobStatus.running }).2).foldl upsertRow tbl := rfl
  have hagg : (processSettlementJob txs b
        { j with status := JobStatus.running }).2
      = (windowTxs txs (j.paramFrom * secondsPerDay)
          ((j.paramTo + 1) * secondsPerDay)).foldl applyTx [] :=
    processSettlementJob_snd txs b _ hb
  have hwin : t ∈ windowTxs txs (j.paramFrom * secondsPerDay)
      ((j.paramTo + 1) * secondsPerDay) :=
    (mem_windowTxs txs _ _ t).mpr ⟨ht, hst, hlo, hhi⟩
  have hcontrib : t ∈ contributors (aggKey t)
      (windowTxs txs (j.paramFrom * secondsPerDay)
        ((j.paramTo + 1) * secondsPerDay)) :=
    (mem_contributors _ _ t).mpr ⟨hwin, rfl⟩
  have hcne : contributors (aggKey t)
      (windowTxs txs (j.paramFrom * secondsPerDay)
        ((j.paramTo + 1) * secondsPerDay)) ≠ [] :=
    List.ne_nil_of_mem hcontrib
  obtain ⟨hag, haf, han, hac, har⟩ :=
    foldl_applyTx_stats (aggKey t)
      (windowTxs txs (j.paramFrom * secondsPerDay)
        ((j.paramTo + 1) * secondsPerDay)) []
  rw [if_neg hcne] at har
  have haggrows : keyRows (aggKey t)
      ((windowTxs txs (j.paramFrom * secondsPerDay)
        ((j.paramTo + 1) * secondsPerDay)).foldl applyTx []) ≠ [] := by
    intro h0
    have := (keyStats_of_empty _ _ h0).2.2.2.2
    rw [har] at this
    simp [rowCount_nil] at this
  obtain ⟨hug, huf, hun, huc, hur⟩ :=
    foldl_upsertRow_stats (aggKey t)
      ((windowTxs txs (j.paramFrom * secondsPerDay)
        ((j.paramTo + 1) * secondsPerDay)).foldl applyTx []) tbl
  rw [if_neg haggrows] at hur
  rw [hpj, hagg]
  refine ⟨?_, ?_, ?_, ?_, ?_⟩
  · rw [hur, htbl0r]
    omega
  · rw [hug, htbl0g, hag, keyGross_nil]
    omega
  · rw [huf, htbl0f, haf, keyFee_nil]
    omega
  · rw [hun, htbl0n, han, keyNet_nil, hug, htbl0g, hag, keyGross_nil,
      huf, htbl0f, haf, keyFee_nil, sum_map_sub]
    omega
  · rw [huc, htbl0c, hac, keyCount_nil]
    omega

/-- Witness for `settlement_run_spec`: the three seeded transactions of the
settlement happy path, batch size 2, empty settlements table. -/
theorem settlement_run_spec_witness :
    rowCount (aggKey exTx1) (processJob exTxs 2 [] exJob).2 = 1 :=
  (settlement_run_spec exTxs 2 [] exJob exTx1 (by decide) (by decide)
    (by decide) (by decide) (by decide) (by decide)).1

/-- C5 -- `settlement.upsert` merges additively on the `(merchant, date)`
key (each stored numeric field absorbs the incoming one), and therefore a
second settlement run over the same window and unchanged transactions
doubles every stored per-key total while leaving the row count of every
key unchanged. -/
theorem upsert_additive_doubling :
    (∀ (tbl : List Settlement) (s : Settlement) (k : String × Int),
        keyGross k (upsertRow tbl s)
            = keyGross k tbl + (if stKey s = k then s.grossCents else 0) ∧
        keyFee k (upsertRow tbl s)
            = keyFee k tbl + (if stKey s = k then s.feeCents else 0) ∧
        keyNet k (upsertRow tbl s)
            = keyNet k tbl + (if stKey s = k then s.netCents else 0) ∧
        keyCount k (upsertRow tbl s)
            = keyCount k tbl + (if stKey s = k then s.txnCount else 0)) ∧
    (∀ (txs : List Transaction) (b : Nat) (j : Job) (k : String × Int),
        0 < b →
        keyGross k (processJob txs b (processJob txs b [] j).2 j).2
            = 2 * keyGross k (processJob txs b [] j).2 ∧
        keyFee k (processJob txs b (processJob txs b [] j).2 j).2
            = 2 * keyFee k (processJob txs b [] j).2 ∧
        keyNet k (processJob txs b (processJob txs b [] j).2 j).2
            = 2 * keyNet k (processJob txs b [] j).2 ∧
        keyCount k (processJob txs b (processJob txs b [] j).2 j).2
            = 2 * keyCount k (processJob txs b [] j).2 ∧
        rowCount k (processJob txs b (processJob txs b [] j).2 j).2
            = rowCount k (processJob txs b [] j).2) := by
  constructor
  · intro tbl s k
    obtain ⟨g, f, n, c, _⟩ := upsertRow_stats s k tbl
    exact ⟨g, f, n, c⟩
  · intro txs b j k _
    have hpj1 : (processJob txs b [] j).2
        = ((processSettlementJob txs b
              { j with status := JobStatus.running }).2).foldl upsertRow [] :=
      rfl
    have hpj2 : (processJob txs b (processJob txs b [] j).2 j).2
        = ((processSettlementJob txs b
              { j with status := JobStatus.running }).2).foldl upsertRow
            ((processJob txs b [] j).2) := rfl
    obtain ⟨g1, f1, n1, c1, r1⟩ :=
      foldl_upsertRow_stats k
        ((processSettlementJob txs b { j with status := JobStatus.running }).2)
        []
    obtain ⟨g2, f2, n2, c2, r2⟩ :=
      foldl_upsertRow_stats k
        ((processSettlementJob txs b { j with status := JobStatus.running }).2)
        ((processJob txs b [] j).2)
    rw [hpj2, hpj1] at *
    refine ⟨?_, ?_, ?_, ?_, ?_⟩
    · rw [g2, g1, keyGross_nil]
      omega
    · rw [f2, f1, keyFee_nil]
      omega
    · rw [n2, n1, keyNet_nil]
      omega
    · rw [c2, c1, keyCount_nil]
      omega
    · rw [r2, r1]
      by_cases h0 : keyRows k
          ((processSettlementJob txs b
            { j with status := JobStatus.running }).2) = [] <;>
        simp [h0, rowCount_nil] <;> omega

/-- Witness for `upsert_additive_doubling` on the seeded transactions:
merchant 1's gross doubles across a second identical run. -/
theorem upsert_additive_doubling_witness :
    keyGross (aggKey exTx1)
        (processJob exTxs 2 (processJob exTxs 2 [] exJob).2 exJob).2
      = 2 * keyGross (aggKey exTx1) (processJob exTxs 2 [] exJob).2 :=
  (upsert_additive_doubling.2 exTxs 2 exJob (aggKey exTx1) (by decide)).1

/-- C6 -- evidence for the divergence between the claim and the code: a
settlement job over an empty window completes with progress 0 (the only
progress write is `UpdateProgress(0, 0)`; the loop breaks before any
further update), and a completed job over a non-empty window has
`processed = 3` while its persisted `total` is still 0 (the code under the
"Update job total" comment passes `0, 0` to `UpdateProgress`, and `total`
is never written after creation), so neither `progress = 100` on the empty
window nor `processed = total` holds. -/
theorem completedJob_progress_divergence :
    ((processJob ([] : List Transaction) 2 [] exJob).1.status
        = JobStatus.completed ∧
     (processJob ([] : List Transaction) 2 [] exJob).1.progress = 0 ∧
     (processJob ([] : List Transaction) 2 [] exJob).2 = []) ∧
    ((processJob exTxs 2 [] exJob).1.status = JobStatus.completed ∧
     (processJob exTxs 2 [] exJob).1.progress = 100 ∧
     (processJob exTxs 2 [] exJob).1.processed = 3 ∧
     (processJob exTxs 2 [] exJob).1.total = 0) := by
  refine ⟨⟨rfl, rfl, rfl⟩, rfl, ?_, ?_, rfl⟩
  · have hpr : (processJob exTxs 2 [] exJob).1.progress
        = (processSettlementJob exTxs 2
            { exJob with status := JobStatus.running }).1.progress := rfl
    have hwin : windowTxs exTxs
        (({ exJob with status := JobStatus.running }).paramFrom * secondsPerDay)
        ((({ exJob with status := JobStatus.running }).paramTo + 1)
          * secondsPerDay)
        = [exTx1, exTx2, exTx3] := by decide
    rw [hpr, processSettlementJob_fst exTxs 2 _ (by norm_num), hwin]
    rw [if_neg (by simp)]
    norm_num
  · have hpc : (processJob exTxs 2 [] exJob).1.processed
        = (processSettlementJob exTxs 2
            { exJob with status := JobStatus.running }).1.processed := rfl
    have hwin : windowTxs exTxs
        (({ exJob with status := JobStatus.running }).paramFrom * secondsPerDay)
        ((({ exJob with status := JobStatus.running }).paramTo + 1)
          * secondsPerDay)
        = [exTx1, exTx2, exTx3] := by decide
    rw [hpc, processSettlementJob_fst exTxs 2 _ (by norm_num), hwin]
    rw [if_neg (by simp)]
    norm_num

/-- C7 -- the transactions a settlement job consumes are exactly those
with status COMPLETED and `from_midnight ≤ paid_at < to_midnight + 1 day`
(the source adds one day to the parsed `to`); and `CreateSettlementJob`
rejects an unparsable date, or a `to` earlier than `from`, with a
Validation error, leaving the state unchanged (no job row created). -/
theorem settlement_window_validation :
    (∀ (txs : List Transaction) (b : Nat) (j : Job), 0 < b →
        (processSettlementJob txs b j).2
          = (windowTxs txs (j.paramFrom * secondsPerDay)
              ((j.paramTo + 1) * secondsPerDay)).foldl applyTx []) ∧
    (∀ (txs : List Transaction) (lo hi : Int) (t : Transaction),
        t ∈ windowTxs txs lo hi ↔
          t ∈ txs ∧ t.status = TransactionStatus.completed ∧
            lo ≤ t.paidAt ∧ t.paidAt < hi) ∧
    (∀ (st : EngineState) (newId : Nat) (fromS toS : String),
        (parseDate fromS = none ∨ parseDate toS = none) →
        CreateSettlementJob st newId fromS toS
          = (Except.error JobErr.validation, st)) ∧
    (∀ (st : EngineState) (newId : Nat) (fromS toS : String) (f tt : Int),
        parseDate fromS = some f → parseDate toS = some tt → tt < f →
        CreateSettlementJob st newId fromS toS
          = (Except.error JobErr.validation, st)) := by
  refine ⟨fun txs b j hb => processSettlementJob_snd txs b j hb,
    fun txs lo hi t => mem_windowTxs txs lo hi t, ?_, ?_⟩
  · intro st newId fromS toS h
    rcases h with h | h
    · simp [CreateSettlementJob, h]
    · cases hf : parseDate fromS with
      | none => simp [CreateSettlementJob, hf]
      | some f => simp [CreateSettlementJob, hf, h]
  · intro st newId fromS toS f tt hf ht hlt
    simp [CreateSettlementJob, hf, ht, hlt]

/-- Witness for `settlement_window_validation`: a request whose `to` date
precedes its `from` date is rejected with Validation and creates
nothing. -/
theorem settlement_window_validation_witness :
    CreateSettlementJob exEngine0 1 "2024-01-10" "2024-01-05"
      = (Except.error JobErr.validation, exEngine0) :=
  settlement_window_validation.2.2.2 exEngine0 1 "2024-01-10" "2024-01-05"
    (daysFromCivil 2024 1 10) (daysFromCivil 2024 1 5)
    (by decide) (by decide) (by decide)

/-- C8 -- `cancel` flips a job row to CANCELLED exactly when its status is
QUEUED or RUNNING; on a terminal status (COMPLETED, FAILED, CANCELLED) it
reports `JobAlreadyCancelled` and leaves the row unchanged; a repeated
cancel leaves the row where the first one put it, and a terminal row never
re-enters a non-terminal state through cancel. -/
theorem cancel_spec (j : Job) :
    ((Cancel j).1 = Except.ok () ↔
        (j.status = JobStatus.queued ∨ j.status = JobStatus.running)) ∧
    ((j.status = JobStatus.queued ∨ j.status = JobStatus.running) →
        (Cancel j).2 = { j with status := JobStatus.cancelled }) ∧
    ((j.status = JobStatus.completed ∨ j.status = JobStatus.failed ∨
        j.status = JobStatus.cancelled) →
        (Cancel j).1 = Except.error JobErr.jobAlreadyCancelled ∧
        (Cancel j).2 = j) ∧
    (Cancel ((Cancel j).2)).2 = (Cancel j).2 := by
  obtain ⟨id, status, progress, processed, total, pf, pt⟩ := j
  cases status <;> simp [Cancel]

/-- Witness for `cancel_spec`: cancelling the queued example job
succeeds. -/
theorem cancel_spec_witness :
    (Cancel exJob).1 = Except.ok () :=
  (cancel_spec exJob).1.mpr (Or.inl rfl)

/-- C9 counterexample -- the claim says a limit above 100 is clamped to
100; the code replaces it with the default 10: at limit 150 the effective
limit is 10, not 100. -/
theorem listOrders_limit_counterexample :
    effectiveLimit 150 = 10 ∧ ¬ effectiveLimit 150 = 100 := by
  decide

/-- C9 (amended) -- `list_orders` returns orders most-recent-first
(sorted by `created_at` descending); a limit outside `[1, 100]` (zero or
negative, or above 100) is replaced by the default 10, a limit inside the
range is used as given, so the effective limit always lies in `[1, 100]`;
a negative offset becomes 0. -/
theorem listOrders_spec :
    (∀ limit : Int, (limit ≤ 0 ∨ 100 < limit) → effectiveLimit limit = 10) ∧
    (∀ limit : Int, 1 ≤ limit → limit ≤ 100 → effectiveLimit limit = limit) ∧
    (∀ limit : Int, 1 ≤ effectiveLimit limit ∧ effectiveLimit limit ≤ 100) ∧
    (∀ offset : Int, offset < 0 → effectiveOffset offset = 0) ∧
    (∀ offset : Int, 0 ≤ offset → effectiveOffset offset = offset) ∧
    (∀ (orders : List Order) (limit offset : Int),
        (ListOrders orders limit offset).Pairwise orderDesc) := by
  refine ⟨?_, ?_, ?_, ?_, ?_, ?_⟩
  · intro limit h
    unfold effectiveLimit
    rw [if_pos h]
  · intro limit h1 h2
    unfold effectiveLimit
    rw [if_neg (by omega : ¬ (limit ≤ 0 ∨ 100 < limit))]
  · intro limit
    unfold effectiveLimit
    split_ifs with h
    · omega
    · omega
  · intro off h
    unfold effectiveOffset
    rw [if_pos h]
  · intro off h
    unfold effectiveOffset
    rw [if_neg (by omega : ¬ off < 0)]
  · intro orders limit off
    unfold ListOrders listRepo
    letI : IsTotal Order orderDesc :=
      ⟨fun a b => le_total b.createdAt a.createdAt⟩
    letI : IsTrans Order orderDesc :=
      ⟨fun _ _ _ hab hbc => le_trans hbc hab⟩
    have hs : (List.insertionSort orderDesc orders).Pairwise orderDesc :=
      List.sorted_insertionSort orderDesc orders
    exact List.Pairwise.sublist (List.take_sublist _ _)
      (List.Pairwise.sublist (List.drop_sublist _ _) hs)

/-- Witness for `listOrders_spec`: a limit of 50 stands as given. -/
theorem listOrders_spec_witness :
    effectiveLimit 50 = 50 :=
  listOrders_spec.2.1 50 (by decide) (by decide)

/-- A worker only ever picks jobs that were in the queue. -/
theorem runWorkers_sub :
    ∀ (n : Nat) (st : EngineState) (jb : Job),
      jb ∈ runWorkers st n → jb ∈ st.queue := by
  intro n
  induction n with
  | zero =>
    intro st jb h
    simp [runWorkers] at h
  | succ n ih =>
    intro st jb h
    unfold runWorkers at h
    cases hq : st.queue with
    | nil =>
      simp [workerPick, hq] at h
    | cons x rest =>
      simp only [workerPick, hq] at h
      rcases List.mem_cons.mp h with h1 | h1
      · rw [h1]
        exact List.mem_cons_self x rest
      · have h2 := ih { st with queue := rest } jb h1
        exact List.mem_cons_of_mem x h2

/-- C10 -- settlement job submission is not atomic: the QUEUED row is
persisted first, so when the bounded queue is full the caller gets an
error while the row remains in the jobs table in QUEUED status, the queue
is unchanged, and (the submitted id being fresh) no worker receive ever
yields that job. -/
theorem createSettlementJob_orphan (st : EngineState) (newId : Nat)
    (fromS toS : String) (f tt : Int)
    (hf : parseDate fromS = some f) (ht : parseDate toS = some tt)
    (hft : ¬ tt < f)
    (hfull : st.queueCap ≤ st.queue.length)
    (hfresh : ∀ q ∈ st.queue, q.id ≠ newId) :
    (CreateSettlementJob st newId fromS toS).1
        = Except.error JobErr.internal ∧
    (CreateSettlementJob st newId fromS toS).2.jobs
        = st.jobs ++ [{ id := newId, status := JobStatus.queued,
                        progress := 0, processed := 0, total := 0,
                        paramFrom := f, paramTo := tt }] ∧
    (CreateSettlementJob st newId fromS toS).2.queue = st.queue ∧
    (∀ (n : Nat) (jb : Job),
        jb ∈ runWorkers (CreateSettlementJob st newId fromS toS).2 n →
        jb.id ≠ newId) := by
  have hstep : CreateSettlementJob st newId fromS toS
      = (Except.error JobErr.internal,
         { st with jobs := st.jobs ++
             [{ id := newId, status := JobStatus.queued, progress := 0,
                processed := 0, total := 0,
                paramFrom := f, paramTo := tt }] }) := by
    unfold CreateSettlementJob QueueJob
    simp only [hf, ht, if_neg hft]
    split_ifs with hcase
    · exact absurd (show st.queue.length < st.queueCap from hcase)
        (not_lt.mpr hfull)
    · rfl
  rw [hstep]
  refine ⟨rfl, rfl, rfl, ?_⟩
  intro n jb h
  have h2 := runWorkers_sub n _ jb h
  exact hfresh jb h2

/-- Witness for `createSettlementJob_orphan`: submission against a full
queue of capacity one. -/
theorem createSettlementJob_orphan_witness :
    (CreateSettlementJob exFullEngine 9 "2024-01-05" "2024-01-10").1
      = Except.error JobErr.internal :=
  (createSettlementJob_orphan exFullEngine 9 "2024-01-05" "2024-01-10"
    (daysFromCivil 2024 1 5) (daysFromCivil 2024 1 10)
    (by decide) (by decide) (by decide) (by decide) (by decide)).1

end Indico
